import Mathlib

/-!
Shallow embedding of the mini-sh command-line front end (src/mini-sh.js):
a lexer (lex), a quote/escape-aware word splitter (splitWordIntoParts),
a recursive-descent parser (parse) and an expansion engine (expandWord,
buildArgv).  Strings are modelled as lists of characters; JavaScript index
arithmetic (which may overshoot the end of the string, with slice and
further scanning clamping) is reproduced through List.take / List.drop,
which clamp the same way.  Loops whose body can consume more than one
character per iteration are written with an explicit fuel argument that is
structurally decreasing; every call site passes fuel no smaller than the
length of the list being scanned plus one, which is sufficient because
every loop iteration consumes at least one character.
-/

namespace MiniSh

/-- Character span, mirroring makeSpan(start, end); the source field named
end is called stop here because end is a Lean keyword. -/
structure Span where
  start : Nat
  stop : Nat
deriving DecidableEq, Repr

/-- isSpace from the source: space, tab, newline, carriage return. -/
def isSpace (ch : Char) : Bool :=
  ch == ' ' || ch == '\t' || ch == '\n' || ch == '\r'

/-- isDigit from the source. -/
def isDigit (ch : Char) : Bool :=
  '0' ≤ ch && ch ≤ '9'

/-- isVarStart from the source. -/
def isVarStart (ch : Char) : Bool :=
  ('A' ≤ ch && ch ≤ 'Z') || ('a' ≤ ch && ch ≤ 'z') || ch == '_'

/-- isVarChar from the source. -/
def isVarChar (ch : Char) : Bool :=
  isVarStart ch || isDigit ch

/-- Number(digitString) for a non-empty run of ASCII digits. -/
def natOfDigits (ds : List Char) : Nat :=
  ds.foldl (fun n c => n * 10 + (c.toNat - '0'.toNat)) 0

/-- A word part: Text is the kind Text object { value, span },
Var is the kind Var object { name, braced, span }. -/
inductive Part where
  | Text (value : List Char) (span : Span)
  | Var (name : List Char) (braced : Bool) (span : Span)
deriving DecidableEq, Repr

/-- True for Text parts. -/
def Part.isText : Part → Bool
  | .Text _ _ => true
  | .Var _ _ _ => false

/-- pushText from splitWordIntoParts: empty strings are skipped. -/
def pushText (s : List Char) (start stop : Nat) : List Part :=
  if s = [] then [] else [Part.Text s ⟨start, stop⟩]

/-- One step of the final merge pass of splitWordIntoParts: the merged
array is kept in reverse order; a Text part arriving when the most recent
merged part is also Text is folded into it, concatenating values and
extending the span. -/
def mergeStep (accRev : List Part) (p : Part) : List Part :=
  match accRev, p with
  | Part.Text v1 s1 :: accTail, Part.Text v2 s2 =>
      Part.Text (v1 ++ v2) ⟨s1.start, s2.stop⟩ :: accTail
  | _, _ => p :: accRev

/-- The merge pass at the end of splitWordIntoParts: consecutive Text
parts are merged into single Text parts. -/
def mergeParts (ps : List Part) : List Part :=
  (ps.foldl mergeStep []).reverse

/-- Scanning a variable reference after a dollar sign, shared verbatim by
the unquoted scanner, the double-quote scanner and scanTextForVars.
i is the absolute position of the dollar sign, rest the characters after
it.  Returns the produced part and the number of characters consumed
counting the dollar sign itself (for an unterminated braced reference the
count overshoots the available characters by one, as the source index
does). -/
def varAfterDollar (i : Nat) (rest : List Char) : Part × Nat :=
  match rest with
  | '{' :: rest2 =>
      let name := rest2.takeWhile (fun c => c ≠ '}')
      (Part.Var name true ⟨i, i + name.length + 3⟩, name.length + 3)
  | c2 :: rest2 =>
      if isVarStart c2 then
        let name := c2 :: rest2.takeWhile isVarChar
        (Part.Var name false ⟨i, i + 1 + name.length⟩, 1 + name.length)
      else
        (Part.Text ['$'] ⟨i, i + 1⟩, 1)
  | [] => (Part.Text ['$'] ⟨i, i + 1⟩, 1)

/-- Loop body of scanTextForVars: pos is the absolute position of the next
character, text the remaining characters of the segment, accStart the
absolute start of the pending literal run and acc its characters. -/
def scanVarsLoop : Nat → Nat → List Char → Nat → List Char → List Part
  | 0, _, _, _, _ => []
  | _ + 1, pos, [], accStart, acc => pushText acc accStart pos
  | fuel + 1, pos, c :: rest, accStart, acc =>
      if c = '$' then
        let pn := varAfterDollar pos rest
        pushText acc accStart pos ++
          pn.1 :: scanVarsLoop fuel (pos + pn.2) (rest.drop (pn.2 - 1)) (pos + pn.2) []
      else
        scanVarsLoop fuel (pos + 1) rest accStart (acc ++ [c])

/-- scanTextForVars(text, offset) from splitWordIntoParts: splits a piece
of already-unquoted text into literal runs and variable references. -/
def scanTextForVars (text : List Char) (offset : Nat) : List Part :=
  scanVarsLoop (text.length + 1) offset text offset []

/-- The escaped character emitted for backslash-x inside double quotes:
backslash-n gives newline, backslash-t gives tab, every other character is
kept literally. -/
def dqEscChar (e : Char) : Char :=
  if e = 'n' then '\n' else if e = 't' then '\t' else e

/-- The double-quote scanning loop of splitWordIntoParts, entered after
the opening double quote.  i is the absolute position of the next
character, cs the remaining characters, segStart / seg the pending
unflushed segment.  Returns the parts produced, the final absolute
position and the characters remaining after the region.  When the input
runs out before a closing double quote the pending segment is discarded,
exactly as in the source, where the loop exits without flushing. -/
def dqLoop : Nat → Nat → List Char → Nat → List Char → List Part × Nat × List Char
  | 0, i, cs, _, _ => ([], i, cs)
  | _ + 1, i, [], _, _ => ([], i, [])
  | fuel + 1, i, c :: rest, segStart, seg =>
      if c = '\\' then
        let escPart : List Part :=
          match rest with
          | [] => []
          | e :: _ => [Part.Text [dqEscChar e] ⟨i, i + 2⟩]
        let k := dqLoop fuel (i + 2) (rest.drop 1) (i + 2) []
        (pushText seg segStart i ++ escPart ++ k.1, k.2)
      else if c = '"' then
        (scanTextForVars seg segStart, i + 1, rest)
      else if c = '$' then
        let pn := varAfterDollar i rest
        let k := dqLoop fuel (i + pn.2) (rest.drop (pn.2 - 1)) (i + pn.2) []
        (scanTextForVars seg segStart ++ pn.1 :: k.1, k.2)
      else
        dqLoop fuel (i + 1) rest segStart (seg ++ [c])

/-- True for the four characters that interrupt a plain literal run in
splitWordIntoParts. -/
def isSplitSpecial (c : Char) : Bool :=
  c = '\'' || c = '"' || c = '\\' || c = '$'

/-- Main loop of splitWordIntoParts: i is the absolute position of the
next character and cs the remaining characters of the raw word text. -/
def splitLoop : Nat → Nat → List Char → List Part
  | 0, _, _ => []
  | _ + 1, _, [] => []
  | fuel + 1, i, c :: rest =>
      if c = '\'' then
        let inner := rest.takeWhile (fun x => x ≠ '\'')
        let afterInner := rest.drop inner.length
        let closeN : Nat := if afterInner = [] then 0 else 1
        pushText inner (i + 1) (i + 1 + inner.length) ++
          splitLoop fuel (i + 1 + inner.length + closeN) (afterInner.drop closeN)
      else if c = '"' then
        let k := dqLoop (rest.length + 1) (i + 1) rest (i + 1) []
        k.1 ++ splitLoop fuel k.2.1 k.2.2
      else if c = '\\' then
        match rest with
        | r :: rest2 => Part.Text [r] ⟨i, i + 2⟩ :: splitLoop fuel (i + 2) rest2
        | [] => Part.Text ['\\'] ⟨i, i + 1⟩ :: splitLoop fuel (i + 1) []
      else if c = '$' then
        let pn := varAfterDollar i rest
        pn.1 :: splitLoop fuel (i + pn.2) (rest.drop (pn.2 - 1))
      else
        let run := (c :: rest).takeWhile (fun x => !isSplitSpecial x)
        pushText run i (i + run.length) ++
          splitLoop fuel (i + run.length) ((c :: rest).drop run.length)

/-- splitWordIntoParts(raw, baseOffset): splits the raw captured text of a
word token into Text and Var parts and merges adjacent Text parts. -/
def splitWordIntoParts (raw : List Char) (baseOffset : Nat) : List Part :=
  mergeParts (splitLoop (raw.length + 1) baseOffset raw)

/-- Metadata of a fd-prefixed redirection token, mirroring the meta object
the lexer attaches to FD_GT tokens.  In the source the append form carries
{ fd, append } and the dup form { fd, dup, dupTarget }; absent fields read
as falsy, which the fixed Bool / Option fields reproduce. -/
structure FdMeta where
  fd : Nat
  append : Bool
  dup : Bool
  dupTarget : Option Nat
deriving DecidableEq, Repr

/-- Token kinds of the lexer.  The meta payload of FD_GT is folded into
the constructor; all other kinds carry meta null. -/
inductive TokenKind where
  | Word
  | Pipe
  | GT
  | GTGT
  | LT
  | AMP_GT
  | FD_GT (meta : FdMeta)
  | EOF
deriving DecidableEq, Repr

/-- A token: kind, raw captured text and character span. -/
structure Token where
  kind : TokenKind
  text : List Char
  start : Nat
  stop : Nat
deriving DecidableEq, Repr

/-- True when the head of a character list is the given character; models
peek(1) comparisons, where peeking past the end reads undefined and every
comparison with undefined is false. -/
def headIs (cs : List Char) (ch : Char) : Bool :=
  match cs with
  | [] => false
  | c :: _ => c == ch

/-- The quoted-region consumption loop inside the word scanner of lex,
entered after the opening quote q.  Returns the number of characters
consumed, counting the closing quote when present; a backslash inside a
double-quoted region consumes the next character as well, which can
overshoot the end of the input by one exactly as the source index does. -/
def quotedCount (q : Char) : List Char → Nat
  | [] => 0
  | cc :: rest =>
      if cc = '\\' && q = '"' then
        match rest with
        | [] => 2
        | _ :: rest2 => 2 + quotedCount q rest2
      else if cc = q then 1
      else 1 + quotedCount q rest

/-- The word-scanning loop of lex: returns how many characters starting at
cs belong to the word token.  Scanning stops at whitespace, at a pipe or
angle-bracket operator or at an ampersand immediately followed by a
greater-than sign; quoted regions are consumed opaquely and a backslash
consumes the next character as well. -/
def wordCount : Nat → List Char → Nat
  | 0, _ => 0
  | _ + 1, [] => 0
  | fuel + 1, c :: rest =>
      if isSpace c then 0
      else if c = '|' || c = '<' || c = '>' then 0
      else if c = '&' && headIs rest '>' then 0
      else if c = '\'' || c = '"' then
        let n := 1 + quotedCount c rest
        n + wordCount fuel ((c :: rest).drop n)
      else if c = '\\' then
        2 + wordCount fuel (rest.drop 1)
      else
        1 + wordCount fuel rest

/-- One iteration of the main loop of lex on a non-empty input, at
position i with current character c and remaining characters rest.
Returns the token emitted (none for a skipped whitespace character) and
the number of characters consumed, which is always at least one. -/
def lexStep (i : Nat) (c : Char) (rest : List Char) : Option Token × Nat :=
  if isSpace c then (none, 1)
  else if c = '|' then (some ⟨TokenKind.Pipe, [c], i, i + 1⟩, 1)
  else if c = '&' && headIs rest '>' then
    (some ⟨TokenKind.AMP_GT, (c :: rest).take 2, i, i + 2⟩, 2)
  else if isDigit c then
    let ds := (c :: rest).takeWhile isDigit
    let afterD := (c :: rest).drop ds.length
    if headIs afterD '>' then
      let after1 := afterD.drop 1
      if headIs after1 '>' then
        let n := ds.length + 2
        (some ⟨TokenKind.FD_GT ⟨natOfDigits ds, true, false, none⟩,
          (c :: rest).take n, i, i + n⟩, n)
      else if headIs after1 '&' then
        let dds := (after1.drop 1).takeWhile isDigit
        let n := ds.length + 2 + dds.length
        (some ⟨TokenKind.FD_GT
          ⟨natOfDigits ds, false, true,
            if dds = [] then none else some (natOfDigits dds)⟩,
          (c :: rest).take n, i, i + n⟩, n)
      else
        let n := ds.length + 1
        (some ⟨TokenKind.FD_GT ⟨natOfDigits ds, false, false, none⟩,
          (c :: rest).take n, i, i + n⟩, n)
    else
      let n := wordCount ((c :: rest).length + 1) (c :: rest)
      (some ⟨TokenKind.Word, (c :: rest).take n, i, i + n⟩, n)
  else if c = '>' then
    if headIs rest '>' then
      (some ⟨TokenKind.GTGT, (c :: rest).take 2, i, i + 2⟩, 2)
    else (some ⟨TokenKind.GT, [c], i, i + 1⟩, 1)
  else if c = '<' then (some ⟨TokenKind.LT, [c], i, i + 1⟩, 1)
  else
    let n := wordCount ((c :: rest).length + 1) (c :: rest)
    (some ⟨TokenKind.Word, (c :: rest).take n, i, i + n⟩, n)

/-- Main loop of lex: i is the absolute position of the next character
and cs the remaining input.  Each iteration either skips one whitespace
character or emits exactly one token while consuming at least one
character. -/
def lexLoop : Nat → Nat → List Char → List Token
  | 0, _, _ => []
  | _ + 1, _, [] => []
  | fuel + 1, i, c :: rest =>
      let s := lexStep i c rest
      match s.1 with
      | some t => t :: lexLoop fuel (i + s.2) ((c :: rest).drop s.2)
      | none => lexLoop fuel (i + s.2) ((c :: rest).drop s.2)

/-- The tokens produced by the main loop of lex, before the final EOF
token is appended. -/
def mainTokens (input : List Char) : List Token :=
  lexLoop (input.length + 1) 0 input

/-- lex(input): the full token stream, terminated by the EOF token whose
span is the input length on both ends. -/
def lex (input : List Char) : List Token :=
  mainTokens input ++ [⟨TokenKind.EOF, [], input.length, input.length⟩]

/-- A Word node: { parts, span }. -/
structure Word where
  parts : List Part
  span : Span
deriving DecidableEq, Repr

/-- The redirection op strings of the source as a closed enumeration:
lt, gt, gtgt are the strings with the angle brackets, clobber and dup are
the strings clobber and dup. -/
inductive RedirOp where
  | lt
  | gt
  | gtgt
  | clobber
  | dup
deriving DecidableEq, Repr

/-- A Redirection node.  fd is none when the source stores undefined.
dupTargetFd is none for undefined (non-dup redirections), some none for
the explicit null of a dup with missing target digits, and some (some n)
for a concrete dup target. -/
structure Redirection where
  fd : Option Nat
  op : RedirOp
  target : Word
  dupTargetFd : Option (Option Nat)
  span : Span
deriving DecidableEq, Repr

/-- A Command node: { words, redirections, span }. -/
structure Command where
  words : List Word
  redirections : List Redirection
  span : Span
deriving DecidableEq, Repr

/-- A Pipeline node: { commands, span }. -/
structure Pipeline where
  commands : List Command
  span : Span
deriving DecidableEq, Repr

/-- makeWord(rawText, startOffset) from the parser. -/
def makeWord (rawText : List Char) (startOffset : Nat) : Word :=
  ⟨splitWordIntoParts rawText startOffset,
   ⟨startOffset, startOffset + rawText.length⟩⟩

/-- The op / fd / dup / dupTarget values the parser computes from a
redirection token, as set by the if-chain in parseCommand.  The three
non-redirection kinds are never passed here; they are mapped to the
initial values of the mutable locals. -/
structure RedirInfo where
  op : RedirOp
  fd : Option Nat
  dup : Bool
  dupTarget : Option Nat
deriving DecidableEq, Repr

/-- Computes RedirInfo from a token kind, following parseCommand. -/
def redirInfo : TokenKind → RedirInfo
  | .AMP_GT => ⟨.clobber, none, false, none⟩
  | .GT => ⟨.gt, none, false, none⟩
  | .GTGT => ⟨.gtgt, none, false, none⟩
  | .LT => ⟨.lt, none, false, none⟩
  | .FD_GT m =>
      if m.dup then ⟨.dup, some m.fd, true, m.dupTarget⟩
      else ⟨if m.append then .gtgt else .gt, some m.fd, false, none⟩
  | _ => ⟨.gt, none, false, none⟩

/-- True for the five redirection token kinds handled by parseCommand. -/
def isRedirKind : TokenKind → Bool
  | .GT => true
  | .GTGT => true
  | .LT => true
  | .AMP_GT => true
  | .FD_GT _ => true
  | _ => false

/-- The redirection recorded when the token after the operator is a Word
token: the target word is made from that token. -/
def mkRedir (t targTok : Token) : Redirection :=
  let info := redirInfo t.kind
  ⟨info.fd, info.op, makeWord targTok.text targTok.start,
   if info.dup then some info.dupTarget else none,
   ⟨t.start, targTok.stop⟩⟩

/-- The redirection recorded when no Word token follows the operator: the
target is a synthesized placeholder word of zero length at the end of the
operator token. -/
def mkMissingRedir (t : Token) : Redirection :=
  let info := redirInfo t.kind
  ⟨info.fd, info.op, makeWord [] t.stop,
   if info.dup then some info.dupTarget else none,
   ⟨t.start, t.stop⟩⟩

/-- The body of parseCommand: consumes tokens until a Pipe or EOF token,
collecting words and redirections in order, and returns them together
with the remaining tokens.  A redirection operator followed by a Word
token consumes that token as its target; otherwise it records a
placeholder and parsing continues at the very next token. -/
def parseCmdLoop : List Token → List Word × List Redirection × List Token
  | [] => ([], [], [])
  | [t] =>
      match t.kind with
      | .EOF => ([], [], [t])
      | .Pipe => ([], [], [t])
      | .Word => ([makeWord t.text t.start], [], [])
      | _ => ([], [mkMissingRedir t], [])
  | t :: t2 :: rest2 =>
      match t.kind with
      | .EOF => ([], [], t :: t2 :: rest2)
      | .Pipe => ([], [], t :: t2 :: rest2)
      | .Word =>
          let k := parseCmdLoop (t2 :: rest2)
          (makeWord t.text t.start :: k.1, k.2.1, k.2.2)
      | _ =>
          if t2.kind = TokenKind.Word then
            let k := parseCmdLoop rest2
            (k.1, mkRedir t t2 :: k.2.1, k.2.2)
          else
            let k := parseCmdLoop (t2 :: rest2)
            (k.1, mkMissingRedir t :: k.2.1, k.2.2)

/-- peekTok().start over a token suffix: the parser only reads it while
the suffix is non-empty, so the empty fallback value is irrelevant. -/
def peekStart : List Token → Nat
  | [] => 0
  | t :: _ => t.start

/-- The top-level pipeline loop of parse: parses commands separated by
Pipe tokens until the EOF token is reached, returning the command list
and the remaining tokens. -/
def parseLoop : Nat → List Token → List Command × List Token
  | 0, ts => ([], ts)
  | fuel + 1, ts =>
      match ts with
      | [] => ([], [])
      | t :: rest =>
          if t.kind = TokenKind.EOF then ([], t :: rest)
          else
            let k := parseCmdLoop (t :: rest)
            let cmd : Command := ⟨k.1, k.2.1, ⟨t.start, peekStart k.2.2⟩⟩
            match k.2.2 with
            | t2 :: rest2 =>
                if t2.kind = TokenKind.Pipe then
                  let r := parseLoop fuel rest2
                  (cmd :: r.1, r.2)
                else (cmd :: [], t2 :: rest2)
            | [] => ([cmd], [])

/-- peekTok().end after the pipeline loop: peekTok clamps out-of-range
positions to the final token, which the empty case mirrors. -/
def peekStopAt (rest tokens : List Token) : Nat :=
  match rest with
  | t :: _ => t.stop
  | [] =>
      match tokens.getLast? with
      | some t => t.stop
      | none => 0

/-- parse(input): lexes the input and parses a pipeline of commands. -/
def parse (input : List Char) : Pipeline :=
  let tokens := lex input
  let r := parseLoop (tokens.length + 1) tokens
  ⟨r.1, ⟨0, peekStopAt r.2 tokens⟩⟩

/-- A context maps a variable name to an optional value; none stands for
a name that is absent or whose value is null or undefined, and some v
for a value whose string form is v. -/
abbrev Ctx := List Char → Option (List Char)

/-- expandWord(word, ctx): concatenates the contributions of the parts in
order, exactly as the accumulation loop of the source does. -/
def expandWord (word : Word) (ctx : Ctx) : List Char :=
  word.parts.foldl
    (fun out p =>
      match p with
      | .Text v _ => out ++ v
      | .Var name _ _ => out ++ ((ctx name).getD []))
    []

/-- buildArgv(command, ctx): expands every word of the command. -/
def buildArgv (command : Command) (ctx : Ctx) : List (List Char) :=
  command.words.map (fun w => expandWord w ctx)

/-- Fallback values used to read the first command, word or redirection
of concrete parses. -/
def defaultWord : Word := ⟨[], ⟨0, 0⟩⟩

/-- Fallback Command. -/
def defaultCommand : Command := ⟨[], [], ⟨0, 0⟩⟩

/-- Fallback Redirection. -/
def defaultRedir : Redirection := ⟨none, .gt, defaultWord, none, ⟨0, 0⟩⟩

/-- The first word of the first command of a pipeline. -/
def firstWord (p : Pipeline) : Word :=
  ((p.commands.headD defaultCommand).words).headD defaultWord

/-- The first redirection of the first command of a pipeline. -/
def firstRedir (p : Pipeline) : Redirection :=
  ((p.commands.headD defaultCommand).redirections).headD defaultRedir

/-- The number of top-level pipe characters of an input, which is exactly
the number of Pipe tokens the lexer produces: a pipe character inside a
quoted region or after a backslash is consumed by the word scanner and
never becomes a Pipe token. -/
def topLevelPipes (s : List Char) : Nat :=
  ((lex s).filter (fun t => decide (t.kind = TokenKind.Pipe))).length

/-- True when the final token before EOF is a Pipe token (a trailing
top-level pipe). -/
def endsWithPipe (s : List Char) : Bool :=
  match (mainTokens s).getLast? with
  | some t => decide (t.kind = TokenKind.Pipe)
  | none => false

/-- The contribution of a single part under a context, stated as the spec
words it: a Text part contributes its literal value and a Var part the
string form of the context value of its name, with an absent name and a
null or undefined value contributing the empty string.  This definition
follows the wording of the spec and is compared against expandWord, which
is translated from the source. -/
def specContribution (ctx : Ctx) : Part → List Char
  | .Text v _ => v
  | .Var name _ _ => (ctx name).getD []

/-!  Lemmas about the expander. -/

/-- Two parts are not both literal Text parts. -/
def notBothText (a b : Part) : Prop :=
  ¬ (a.isText = true ∧ b.isText = true)

/-- No two adjacent parts of the list are both Text parts. -/
def adjTextFree (ps : List Part) : Prop :=
  List.Chain' notBothText ps

/-- True for the two token kinds at which parseCommand stops. -/
def isStopTok (t : Token) : Bool :=
  decide (t.kind = TokenKind.Pipe) || decide (t.kind = TokenKind.EOF)

/-- True when the last token of the list is a Pipe token. -/
def lastTokIsPipe (ts : List Token) : Bool :=
  match ts.getLast? with
  | some t => decide (t.kind = TokenKind.Pipe)
  | none => false

/-- The number of Pipe tokens in a token list. -/
def pipeCountTs (ts : List Token) : Nat :=
  (ts.filter (fun t => decide (t.kind = TokenKind.Pipe))).length

theorem foldl_append_parts (g : Part → List Char) :
    ∀ (ps : List Part) (acc : List Char),
      ps.foldl (fun out p => out ++ g p) acc = acc ++ (ps.map g).flatten := by
  intro ps
  induction ps with
  | nil => intro acc; simp
  | cons p ps ih => intro acc; simp [ih, List.append_assoc]

theorem expandWord_eq_foldl (w : Word) (ctx : Ctx) :
    expandWord w ctx =
      w.parts.foldl (fun out p => out ++ specContribution ctx p) [] := by
  unfold expandWord
  congr 1
  funext out p
  cases p <;> rfl

theorem expandWord_eq_join (w : Word) (ctx : Ctx) :
    expandWord w ctx = (w.parts.map (specContribution ctx)).flatten := by
  rw [expandWord_eq_foldl, foldl_append_parts]
  simp

/-- C5 (confirmed): expandWord returns the concatenation, in part order,
of the contributions of its parts, where a Text part contributes its literal
value and a Var part named n contributes the string form of the context
value of n, or the empty string when n is absent or its value is null or
undefined; moreover expanding the word of the input dollar-HOME under a
context binding HOME to /h gives /h, and expanding the word of the input
dollar-MISSING under the empty context gives the empty string.  A Word
yields exactly one string by the very type of expandWord. -/
theorem expandWord_concatenates_contributions :
    (∀ (w : Word) (ctx : Ctx),
        expandWord w ctx = (w.parts.map (specContribution ctx)).flatten) ∧
    expandWord (firstWord (parse "$HOME".data))
        (fun n => if n = "HOME".data then some "/h".data else none) = "/h".data ∧
    expandWord (firstWord (parse "$MISSING".data)) (fun _ => none) = [] :=
  ⟨expandWord_eq_join, by decide, by decide⟩

/-- C10 (confirmed): expandWord depends on the context only through the
names referenced by the Var parts of the word: two contexts that agree on
every such name produce the same expansion. -/
theorem expandWord_noninterference (w : Word) (ctx1 ctx2 : Ctx)
    (h : ∀ name braced span, Part.Var name braced span ∈ w.parts →
      ctx1 name = ctx2 name) :
    expandWord w ctx1 = expandWord w ctx2 := by
  rw [expandWord_eq_join, expandWord_eq_join]
  congr 1
  apply List.map_congr_left
  intro p hp
  cases p with
  | Text v s => rfl
  | Var name braced span => simp [specContribution, h name braced span hp]

/-- Witness for C10: two concrete contexts that agree on HOME, the only
name occurring in the word parsed from dollar-HOME, but differ on every
other name, and the equal expansions the theorem produces. -/
theorem expandWord_noninterference_witness :
    (∀ name braced span,
        Part.Var name braced span ∈ (firstWord (parse "$HOME".data)).parts →
        (fun n => if n = "HOME".data then some "/h".data else some "zz".data) name =
        (fun n => if n = "HOME".data then some "/h".data else none) name) ∧
    expandWord (firstWord (parse "$HOME".data))
        (fun n => if n = "HOME".data then some "/h".data else some "zz".data) =
      expandWord (firstWord (parse "$HOME".data))
        (fun n => if n = "HOME".data then some "/h".data else none) := by
  have hparts : (firstWord (parse "$HOME".data)).parts =
      [Part.Var "HOME".data false ⟨0, 5⟩] := by decide
  have h : ∀ name braced span,
      Part.Var name braced span ∈ (firstWord (parse "$HOME".data)).parts →
      (fun n => if n = "HOME".data then some "/h".data else some "zz".data) name =
      (fun n => if n = "HOME".data then some "/h".data else none) name := by
    intro name braced span hm
    rw [hparts] at hm
    simp only [List.mem_singleton, Part.Var.injEq] at hm
    simp [hm.1]
  exact ⟨h, expandWord_noninterference _ _ _ h⟩

/-- C4 (confirmed): parsing the input cat f 2-gt-amp-1 yields a pipeline
with exactly one Command that has exactly one Redirection, with op dup,
fd 2 and dupTargetFd 1. -/
theorem parse_dup_redirection :
    (parse "cat f 2>&1".data).commands.length = 1 ∧
    ((parse "cat f 2>&1".data).commands.headD defaultCommand).redirections.length = 1 ∧
    (firstRedir (parse "cat f 2>&1".data)).op = RedirOp.dup ∧
    (firstRedir (parse "cat f 2>&1".data)).fd = some 2 ∧
    (firstRedir (parse "cat f 2>&1".data)).dupTargetFd = some (some 1) := by
  decide

/-- Counterexample to C3: parsing a-space-gt-space-out.txt yields one
redirection with op gt, but its fd field is undefined (none), not 1: the
parser sets fd only for fd-prefixed redirection tokens and leaves it
undefined for a bare gt operator. -/
theorem parse_gt_redirection_fd_not_one :
    ((parse "a > out.txt".data).commands.headD defaultCommand).redirections.length = 1 ∧
    (firstRedir (parse "a > out.txt".data)).op = RedirOp.gt ∧
    ¬ (firstRedir (parse "a > out.txt".data)).fd = some 1 := by
  decide

theorem mergeStep_chain (acc : List Part) (p : Part)
    (h : List.Chain' notBothText acc) :
    List.Chain' notBothText (mergeStep acc p) := by
  match acc, p with
  | [], p =>
      cases p <;> simp [mergeStep]
  | Part.Text v1 s1 :: accTail, Part.Text v2 s2 =>
      rw [List.chain'_cons'] at h
      show List.Chain' notBothText
        (Part.Text (v1 ++ v2) ⟨s1.start, s2.stop⟩ :: accTail)
      rw [List.chain'_cons']
      refine ⟨fun y hy => ?_, h.2⟩
      have hy1 := h.1 y hy
      simp only [notBothText, Part.isText] at hy1 ⊢
      exact hy1
  | Part.Text v1 s1 :: accTail, Part.Var n b sp =>
      show List.Chain' notBothText (Part.Var n b sp :: Part.Text v1 s1 :: accTail)
      rw [List.chain'_cons]
      exact ⟨by simp [notBothText, Part.isText], h⟩
  | Part.Var n b sp :: accTail, p =>
      have e : mergeStep (Part.Var n b sp :: accTail) p =
          p :: Part.Var n b sp :: accTail := by
        cases p <;> rfl
      rw [e, List.chain'_cons]
      exact ⟨by simp [notBothText, Part.isText], h⟩

theorem foldl_mergeStep_chain (ps : List Part) :
    ∀ acc, List.Chain' notBothText acc →
      List.Chain' notBothText (ps.foldl mergeStep acc) := by
  induction ps with
  | nil => intro acc h; simpa using h
  | cons p ps ih =>
      intro acc h
      simpa using ih (mergeStep acc p) (mergeStep_chain acc p h)

theorem notBothText_symm {a b : Part} (h : notBothText a b) : notBothText b a := by
  unfold notBothText at h ⊢
  exact fun hc => h ⟨hc.2, hc.1⟩

theorem mergeParts_adjTextFree (ps : List Part) : adjTextFree (mergeParts ps) := by
  unfold adjTextFree mergeParts
  rw [List.chain'_reverse]
  exact (foldl_mergeStep_chain ps [] List.chain'_nil).imp
    (fun a b h => notBothText_symm h)

theorem splitWordIntoParts_adjTextFree (raw : List Char) (base : Nat) :
    adjTextFree (splitWordIntoParts raw base) :=
  mergeParts_adjTextFree _

theorem makeWord_adjTextFree (raw : List Char) (off : Nat) :
    adjTextFree (makeWord raw off).parts :=
  splitWordIntoParts_adjTextFree raw off

theorem mkRedir_target_adjTextFree (t t2 : Token) :
    adjTextFree (mkRedir t t2).target.parts :=
  makeWord_adjTextFree _ _

theorem mkMissingRedir_target_adjTextFree (t : Token) :
    adjTextFree (mkMissingRedir t).target.parts :=
  makeWord_adjTextFree _ _

theorem parseCmdLoop_adjTextFree (ts : List Token) :
    (∀ w ∈ (parseCmdLoop ts).1, adjTextFree w.parts) ∧
    (∀ r ∈ (parseCmdLoop ts).2.1, adjTextFree r.target.parts) := by
  induction ts using parseCmdLoop.induct with
  | case1 => simp [parseCmdLoop]
  | case2 t hk =>
      obtain ⟨k, tx, st, sp⟩ := t
      simp only at hk
      subst hk
      simp [parseCmdLoop]
  | case3 t hk =>
      obtain ⟨k, tx, st, sp⟩ := t
      simp only at hk
      subst hk
      simp [parseCmdLoop]
  | case4 t hk =>
      obtain ⟨k, tx, st, sp⟩ := t
      simp only at hk
      subst hk
      simp [parseCmdLoop]
      exact makeWord_adjTextFree _ _
  | case5 t h1 h2 h3 =>
      obtain ⟨k, tx, st, sp⟩ := t
      have e : parseCmdLoop [⟨k, tx, st, sp⟩] =
          ([], [mkMissingRedir ⟨k, tx, st, sp⟩], []) := by
        cases k with
        | EOF => exact (h1 rfl).elim
        | Pipe => exact (h2 rfl).elim
        | Word => exact (h3 rfl).elim
        | GT => rfl
        | GTGT => rfl
        | LT => rfl
        | AMP_GT => rfl
        | FD_GT m => rfl
      rw [e]
      refine ⟨by simp, ?_⟩
      intro r hr
      rw [List.mem_singleton] at hr
      subst hr
      exact mkMissingRedir_target_adjTextFree _
  | case6 t t2 rest2 hk =>
      obtain ⟨k, tx, st, sp⟩ := t
      simp only at hk
      subst hk
      simp [parseCmdLoop]
  | case7 t t2 rest2 hk =>
      obtain ⟨k, tx, st, sp⟩ := t
      simp only at hk
      subst hk
      simp [parseCmdLoop]
  | case8 t t2 rest2 hk ih =>
      obtain ⟨k, tx, st, sp⟩ := t
      simp only at hk
      subst hk
      have e : parseCmdLoop (⟨TokenKind.Word, tx, st, sp⟩ :: t2 :: rest2) =
          (makeWord tx st :: (parseCmdLoop (t2 :: rest2)).1,
           (parseCmdLoop (t2 :: rest2)).2.1,
           (parseCmdLoop (t2 :: rest2)).2.2) := rfl
      rw [e]
      refine ⟨?_, fun r hr => ih.2 r hr⟩
      intro w hw
      rcases List.mem_cons.mp hw with h | h
      · subst h; exact makeWord_adjTextFree _ _
      · exact ih.1 w h
  | case9 t t2 rest2 hw2 h1 h2 h3 ih =>
      obtain ⟨k, tx, st, sp⟩ := t
      have e : parseCmdLoop (⟨k, tx, st, sp⟩ :: t2 :: rest2) =
          ((parseCmdLoop rest2).1,
           mkRedir ⟨k, tx, st, sp⟩ t2 :: (parseCmdLoop rest2).2.1,
           (parseCmdLoop rest2).2.2) := by
        cases k with
        | EOF => exact (h1 rfl).elim
        | Pipe => exact (h2 rfl).elim
        | Word => exact (h3 rfl).elim
        | GT => simp [parseCmdLoop, hw2]
        | GTGT => simp [parseCmdLoop, hw2]
        | LT => simp [parseCmdLoop, hw2]
        | AMP_GT => simp [parseCmdLoop, hw2]
        | FD_GT m => simp [parseCmdLoop, hw2]
      rw [e]
      refine ⟨fun w hw => ih.1 w hw, ?_⟩
      intro r hr
      rcases List.mem_cons.mp hr with h | h
      · subst h; exact mkRedir_target_adjTextFree _ _
      · exact ih.2 r h
  | case10 t t2 rest2 hw2 h1 h2 h3 ih =>
      obtain ⟨k, tx, st, sp⟩ := t
      have e : parseCmdLoop (⟨k, tx, st, sp⟩ :: t2 :: rest2) =
          ((parseCmdLoop (t2 :: rest2)).1,
           mkMissingRedir ⟨k, tx, st, sp⟩ :: (parseCmdLoop (t2 :: rest2)).2.1,
           (parseCmdLoop (t2 :: rest2)).2.2) := by
        cases k with
        | EOF => exact (h1 rfl).elim
        | Pipe => exact (h2 rfl).elim
        | Word => exact (h3 rfl).elim
        | GT => simp [parseCmdLoop, hw2]
        | GTGT => simp [parseCmdLoop, hw2]
        | LT => simp [parseCmdLoop, hw2]
        | AMP_GT => simp [parseCmdLoop, hw2]
        | FD_GT m => simp [parseCmdLoop, hw2]
      rw [e]
      refine ⟨fun w hw => ih.1 w hw, ?_⟩
      intro r hr
      rcases List.mem_cons.mp hr with h | h
      · subst h; exact mkMissingRedir_target_adjTextFree _
      · exact ih.2 r h

theorem parseLoop_adjTextFree (fuel : Nat) :
    ∀ ts, ∀ cmd ∈ (parseLoop fuel ts).1,
      (∀ w ∈ cmd.words, adjTextFree w.parts) ∧
      (∀ r ∈ cmd.redirections, adjTextFree r.target.parts) := by
  induction fuel with
  | zero => intro ts cmd h; simp [parseLoop] at h
  | succ fuel ih =>
      intro ts cmd h
      match ts with
      | [] => simp [parseLoop] at h
      | t :: rest =>
          by_cases he : t.kind = TokenKind.EOF
          · simp [parseLoop, he] at h
          · rw [parseLoop] at h
            simp only [he, if_false] at h
            rcases hsp : (parseCmdLoop (t :: rest)).2.2 with _ | ⟨t2, rest2⟩ <;>
              rw [hsp] at h
            · rw [List.mem_singleton] at h
              subst h
              exact parseCmdLoop_adjTextFree (t :: rest)
            · by_cases hp : t2.kind = TokenKind.Pipe
              · simp only [hp, if_true] at h
                rcases List.mem_cons.mp h with h | h
                · subst h
                  exact parseCmdLoop_adjTextFree (t :: rest)
                · exact ih rest2 cmd h
              · simp only [hp, if_false] at h
                rw [List.mem_singleton] at h
                subst h
                exact parseCmdLoop_adjTextFree (t :: rest)

theorem parse_adjTextFree (s : List Char) :
    ∀ cmd ∈ (parse s).commands,
      (∀ w ∈ cmd.words, adjTextFree w.parts) ∧
      (∀ r ∈ cmd.redirections, adjTextFree r.target.parts) :=
  fun cmd h => parseLoop_adjTextFree _ _ cmd h

/-- C7 (confirmed): in every Word produced by splitWordIntoParts — and
hence in every word and every redirection target of a parsed Pipeline —
no two adjacent parts are both Text parts: adjacent literal contributions
are merged into a single Text part by the merge pass. -/
theorem no_adjacent_text_parts :
    (∀ (raw : List Char) (base : Nat), adjTextFree (splitWordIntoParts raw base)) ∧
    (∀ (s : List Char), ∀ cmd ∈ (parse s).commands,
      (∀ w ∈ cmd.words, adjTextFree w.parts) ∧
      (∀ r ∈ cmd.redirections, adjTextFree r.target.parts)) :=
  ⟨splitWordIntoParts_adjTextFree, parse_adjTextFree⟩

/-- Witness for C7 at a concrete parse. -/
theorem no_adjacent_text_parts_witness :
    (parse "a b".data).commands.headD defaultCommand ∈ (parse "a b".data).commands ∧
    firstWord (parse "a b".data) ∈
      ((parse "a b".data).commands.headD defaultCommand).words ∧
    adjTextFree (firstWord (parse "a b".data)).parts :=
  ⟨by decide, by decide,
    (no_adjacent_text_parts.2 "a b".data
        ((parse "a b".data).commands.headD defaultCommand) (by decide)).1
      (firstWord (parse "a b".data)) (by decide)⟩

/-- C8 (confirmed): when a redirection operator token is followed by no
Word token, parseCommand does not fail: it records the redirection with a
synthesized zero-length placeholder Word with zero parts as its target
and continues parsing with the very next token. -/
theorem missing_redirection_target (t : Token) (rest : List Token)
    (h1 : isRedirKind t.kind = true)
    (h2 : ∀ t2, rest.head? = some t2 → ¬ t2.kind = TokenKind.Word) :
    parseCmdLoop (t :: rest) =
      ((parseCmdLoop rest).1,
       mkMissingRedir t :: (parseCmdLoop rest).2.1,
       (parseCmdLoop rest).2.2) ∧
    (mkMissingRedir t).target.parts = [] ∧
    (mkMissingRedir t).target.span.start = (mkMissingRedir t).target.span.stop := by
  refine ⟨?_, rfl, by simp [mkMissingRedir, makeWord]⟩
  obtain ⟨k, tx, st, sp⟩ := t
  simp only [isRedirKind] at h1
  match rest with
  | [] =>
      cases k with
      | EOF => exact absurd h1 (by simp)
      | Pipe => exact absurd h1 (by simp)
      | Word => exact absurd h1 (by simp)
      | GT => rfl
      | GTGT => rfl
      | LT => rfl
      | AMP_GT => rfl
      | FD_GT m => rfl
  | t2 :: rest2 =>
      have hw : ¬ t2.kind = TokenKind.Word := h2 t2 rfl
      cases k with
      | EOF => exact absurd h1 (by simp)
      | Pipe => exact absurd h1 (by simp)
      | Word => exact absurd h1 (by simp)
      | GT => simp [parseCmdLoop, hw]
      | GTGT => simp [parseCmdLoop, hw]
      | LT => simp [parseCmdLoop, hw]
      | AMP_GT => simp [parseCmdLoop, hw]
      | FD_GT m => simp [parseCmdLoop, hw]

/-- Witness for C8: a gt operator token followed directly by a Pipe token
records a placeholder-target redirection and leaves the pipe for the
caller, which is how parsing continues with the rest of the input. -/
theorem missing_redirection_target_witness :
    isRedirKind (TokenKind.GT) = true ∧
    parseCmdLoop [⟨TokenKind.GT, ['>'], 2, 3⟩, ⟨TokenKind.Pipe, ['|'], 4, 5⟩] =
      ([], [mkMissingRedir ⟨TokenKind.GT, ['>'], 2, 3⟩],
       [⟨TokenKind.Pipe, ['|'], 4, 5⟩]) ∧
    (mkMissingRedir ⟨TokenKind.GT, ['>'], 2, 3⟩).target.parts = [] := by
  have h2c : ∀ t2, ([⟨TokenKind.Pipe, ['|'], 4, 5⟩] : List Token).head? = some t2 →
      ¬ t2.kind = TokenKind.Word := by
    intro t2 ht
    simp only [List.head?_cons, Option.some.injEq] at ht
    subst ht
    decide
  have h := missing_redirection_target ⟨TokenKind.GT, ['>'], 2, 3⟩
    [⟨TokenKind.Pipe, ['|'], 4, 5⟩] (by decide) h2c
  refine ⟨by decide, ?_, h.2.1⟩
  rw [h.1]
  decide

/-!  Lemmas about the lexer loop: emitted tokens are never EOF tokens,
every non-whitespace iteration emits a token, every iteration consumes at
least one character, and the fuel given by lex is sufficient. -/

theorem isDigit_char_facts (c : Char) (h : isDigit c = true) :
    isSpace c = false ∧ c ≠ '|' ∧ c ≠ '<' ∧ c ≠ '>' ∧ c ≠ '&' := by
  refine ⟨?_, ?_, ?_, ?_, ?_⟩
  · by_contra hne
    have hsp : isSpace c = true := by revert hne; cases isSpace c <;> simp
    simp only [isSpace, Bool.or_eq_true, beq_iff_eq] at hsp
    rcases hsp with ((rfl | rfl) | rfl) | rfl <;> exact absurd h (by decide)
  · rintro rfl; exact absurd h (by decide)
  · rintro rfl; exact absurd h (by decide)
  · rintro rfl; exact absurd h (by decide)
  · rintro rfl; exact absurd h (by decide)

theorem wordCount_eq_zero (fuel : Nat) (c : Char) (rest : List Char)
    (h : wordCount (fuel + 1) (c :: rest) = 0) :
    isSpace c = true ∨ c = '|' ∨ c = '<' ∨ c = '>' ∨
      (c = '&' ∧ headIs rest '>' = true) := by
  rw [wordCount] at h
  split at h
  · next hc => exact Or.inl hc
  · split at h
    · next hc =>
        simp only [Bool.or_eq_true, decide_eq_true_eq] at hc
        rcases hc with (hc | hc) | hc
        · exact Or.inr (Or.inl hc)
        · exact Or.inr (Or.inr (Or.inl hc))
        · exact Or.inr (Or.inr (Or.inr (Or.inl hc)))
    · split at h
      · next hc =>
          simp only [Bool.and_eq_true, decide_eq_true_eq] at hc
          exact Or.inr (Or.inr (Or.inr (Or.inr hc)))
      · split at h
        · dsimp only at h
          omega
        · split at h
          · omega
          · omega

theorem wordCount_pos_of_digit (c : Char) (rest : List Char)
    (hd : isDigit c = true) :
    1 ≤ wordCount ((c :: rest).length + 1) (c :: rest) := by
  by_contra hlt
  have h0 : wordCount ((c :: rest).length + 1) (c :: rest) = 0 := by omega
  have hf := isDigit_char_facts c hd
  rcases wordCount_eq_zero _ _ _ h0 with h | h | h | h | h
  · rw [hf.1] at h; exact absurd h (by simp)
  · exact hf.2.1 h
  · exact hf.2.2.1 h
  · exact hf.2.2.2.1 h
  · exact hf.2.2.2.2 h.1

theorem wordCount_pos_of_guards (c : Char) (rest : List Char)
    (h1 : ¬ isSpace c = true) (h2 : ¬ c = '|')
    (h3 : ¬ (c = '&' && headIs rest '>') = true)
    (h5 : ¬ c = '>') (h6 : ¬ c = '<') :
    1 ≤ wordCount ((c :: rest).length + 1) (c :: rest) := by
  by_contra hlt
  have h0 : wordCount ((c :: rest).length + 1) (c :: rest) = 0 := by omega
  rcases wordCount_eq_zero _ _ _ h0 with h | h | h | h | h
  · exact h1 h
  · exact h2 h
  · exact h6 h
  · exact h5 h
  · exact h3 (by simp [h.1, h.2])

theorem lexStep_pos (i : Nat) (c : Char) (rest : List Char) :
    1 ≤ (lexStep i c rest).2 := by
  unfold lexStep
  dsimp only
  repeat' split
  all_goals first
    | (next _ _ _ hd _ => exact wordCount_pos_of_digit c rest hd)
    | (next h1 h2 h3 h4 h5 h6 =>
        exact wordCount_pos_of_guards c rest h1 h2 h3 h5 h6)
    | omega

theorem lexStep_ne_eof (i : Nat) (c : Char) (rest : List Char) (t : Token)
    (h : (lexStep i c rest).1 = some t) : ¬ t.kind = TokenKind.EOF := by
  unfold lexStep at h
  dsimp only at h
  repeat' split at h
  all_goals try simp at h
  all_goals (subst h; simp)

theorem lexStep_some (i : Nat) (c : Char) (rest : List Char)
    (h : ¬ isSpace c = true) : ∃ t, (lexStep i c rest).1 = some t := by
  unfold lexStep
  dsimp only
  repeat' split
  all_goals first
    | (exact ⟨_, rfl⟩)
    | (next hs => exact absurd hs h)

theorem lexLoop_mem_ne_eof :
    ∀ (fuel i : Nat) (cs : List Char) (t : Token),
      t ∈ lexLoop fuel i cs → ¬ t.kind = TokenKind.EOF := by
  intro fuel
  induction fuel with
  | zero => intro i cs t ht; simp [lexLoop] at ht
  | succ fuel ih =>
      intro i cs t ht
      match cs with
      | [] => simp [lexLoop] at ht
      | c :: rest =>
          rw [lexLoop] at ht
          try dsimp only at ht
          rcases hs : (lexStep i c rest).1 with _ | u <;> rw [hs] at ht
          · exact ih _ _ t ht
          · rcases List.mem_cons.mp ht with hh | hh
            · subst hh; exact lexStep_ne_eof i c rest t hs
            · exact ih _ _ t hh

theorem lexLoop_ne_nil :
    ∀ (fuel i : Nat) (cs : List Char), cs.length < fuel →
      (∃ c ∈ cs, ¬ isSpace c = true) → lexLoop fuel i cs ≠ [] := by
  intro fuel
  induction fuel with
  | zero => intro i cs hlen _; exact absurd hlen (Nat.not_lt_zero _)
  | succ fuel ih =>
      intro i cs hlen hex
      match cs with
      | [] => rcases hex with ⟨c, hc, _⟩; simp at hc
      | c :: rest =>
          rw [lexLoop]
          try dsimp only
          by_cases hs : isSpace c = true
          · have hstep : lexStep i c rest = (none, 1) := by
              unfold lexStep; simp [hs]
            rw [hstep]
            simp only [List.drop_succ_cons, List.drop_zero]
            rcases hex with ⟨d, hd, hnd⟩
            rcases List.mem_cons.mp hd with hh | hh
            · subst hh; exact absurd hs hnd
            · exact ih (i + 1) rest (by simp at hlen; omega) ⟨d, hh, hnd⟩
          · obtain ⟨u, hu⟩ := lexStep_some i c rest hs
            rw [hu]
            simp

theorem lexLoop_fuel_stable :
    ∀ (f1 f2 i : Nat) (cs : List Char), cs.length < f1 → cs.length < f2 →
      lexLoop f1 i cs = lexLoop f2 i cs := by
  intro f1
  induction f1 with
  | zero => intro f2 i cs h _; exact absurd h (Nat.not_lt_zero _)
  | succ f1 ih =>
      intro f2 i cs h1 h2
      match f2, cs with
      | 0, cs => exact absurd h2 (Nat.not_lt_zero _)
      | g + 1, [] => rfl
      | g + 1, c :: rest =>
          rw [lexLoop, lexLoop]
          try dsimp only
          have hpos := lexStep_pos i c rest
          have hl1 : ((c :: rest).drop (lexStep i c rest).2).length < f1 := by
            simp only [List.length_drop, List.length_cons] at *
            omega
          have hl2 : ((c :: rest).drop (lexStep i c rest).2).length < g := by
            simp only [List.length_drop, List.length_cons] at *
            omega
          rcases hs : (lexStep i c rest).1 with _ | u
          · exact ih g _ _ hl1 hl2
          · exact congrArg (fun l => u :: l) (ih g _ _ hl1 hl2)

/-- C9 (confirmed): for every input, lex terminates and produces a finite
token stream with exactly one EOF token, which is the last token and has
span equal to the input length on both ends; the main loop of the lexer
finishes within any fuel bound exceeding the input length — in particular
unterminated quotes are consumed to end of input rather than looping —
and parse returns a Pipeline for every input. -/
theorem lex_eof_terminated (s : List Char) :
    (lex s).countP (fun t => decide (t.kind = TokenKind.EOF)) = 1 ∧
    (lex s).getLast? = some ⟨TokenKind.EOF, [], s.length, s.length⟩ ∧
    (∀ fuel, s.length < fuel → lexLoop fuel 0 s = mainTokens s) ∧
    ∃ pl : Pipeline, parse s = pl := by
  refine ⟨?_, ?_, ?_, ⟨parse s, rfl⟩⟩
  · unfold lex
    rw [List.countP_append]
    have hmain : (mainTokens s).countP
        (fun t => decide (t.kind = TokenKind.EOF)) = 0 := by
      rw [List.countP_eq_zero]
      intro t ht
      have := lexLoop_mem_ne_eof _ _ _ t ht
      simpa using this
    rw [hmain]
    rfl
  · unfold lex
    exact List.getLast?_concat _
  · intro fuel hf
    exact lexLoop_fuel_stable fuel (s.length + 1) 0 s hf (Nat.lt_succ_self _)

/-- Witness for C9 at a pathological input with an unterminated quote. -/
theorem lex_eof_terminated_witness :
    ('\'' :: "a".data).length < 7 ∧
    (lex ('\'' :: "a".data)).countP (fun t => decide (t.kind = TokenKind.EOF)) = 1 ∧
    lexLoop 7 0 ('\'' :: "a".data) = mainTokens ('\'' :: "a".data) :=
  ⟨by decide, (lex_eof_terminated ('\'' :: "a".data)).1,
    (lex_eof_terminated ('\'' :: "a".data)).2.2.1 7 (by decide)⟩

/-!  Lemmas about single-quoted words: the lexer captures the whole
quoted region as one word token and the splitter turns the interior into
literal text. -/

theorem wordCount_nil (m : Nat) : wordCount m [] = 0 := by
  cases m <;> rfl

theorem lexLoop_nil (f i : Nat) : lexLoop f i [] = [] := by
  cases f <;> rfl

theorem splitLoop_nil (f i : Nat) : splitLoop f i [] = [] := by
  cases f <;> rfl

theorem quotedCount_squote (s : List Char) (h : '\'' ∉ s) :
    quotedCount '\'' (s ++ ['\'']) = s.length + 1 := by
  induction s with
  | nil => rfl
  | cons c s ih =>
      have hc : ¬ c = '\'' := fun hh => h (hh ▸ List.mem_cons_self _ _)
      have hs : '\'' ∉ s := fun hh => h (List.mem_cons_of_mem _ hh)
      rw [List.cons_append, quotedCount.eq_def]
      dsimp only
      rw [if_neg (by simp)]
      rw [if_neg hc]
      rw [ih hs]
      simp
      omega

theorem wordCount_squote (m : Nat) (s : List Char) (h : '\'' ∉ s) :
    wordCount (m + 1) ('\'' :: (s ++ ['\''])) = s.length + 2 := by
  rw [wordCount.eq_def]
  dsimp only
  rw [if_neg (by decide)]
  rw [if_neg (by decide)]
  rw [if_neg (by simp)]
  rw [if_pos (by decide)]
  rw [quotedCount_squote s h]
  have hdrop : ('\'' :: (s ++ ['\''])).drop (1 + (s.length + 1)) = [] := by
    apply List.drop_eq_nil_of_le
    simp
    omega
  rw [hdrop, wordCount_nil]
  omega

theorem take_all_append (s : List Char) (x : Char) :
    ('\'' :: (s ++ [x])).take (s.length + 2) = '\'' :: (s ++ [x]) := by
  apply List.take_of_length_le
  simp

theorem lex_squote (s : List Char) (h : '\'' ∉ s) :
    lex ('\'' :: (s ++ ['\''])) =
      [⟨TokenKind.Word, '\'' :: (s ++ ['\'']), 0, s.length + 2⟩,
       ⟨TokenKind.EOF, [], s.length + 2, s.length + 2⟩] := by
  have hlen : ('\'' :: (s ++ ['\''])).length = s.length + 2 := by simp
  unfold lex mainTokens
  rw [hlen]
  rw [lexLoop]
  have hstep : lexStep 0 '\'' (s ++ ['\'']) =
      (some ⟨TokenKind.Word, '\'' :: (s ++ ['\'']), 0, s.length + 2⟩,
       s.length + 2) := by
    unfold lexStep
    have hw : wordCount (('\'' :: (s ++ ['\''])).length + 1)
        ('\'' :: (s ++ ['\''])) = s.length + 2 := by
      rw [hlen]
      exact wordCount_squote _ s h
    rw [if_neg (by decide)]
    rw [if_neg (by decide)]
    rw [if_neg (by simp)]
    rw [if_neg (by decide)]
    rw [if_neg (by decide)]
    rw [if_neg (by decide)]
    dsimp only
    rw [hw, take_all_append]
    simp
  rw [hstep]
  have hdrop : ('\'' :: (s ++ ['\''])).drop (s.length + 2) = [] := by
    apply List.drop_eq_nil_of_le
    simp
  simp only [hdrop, lexLoop_nil]
  rfl

theorem takeWhile_append_singleton {α} (p : α → Bool) :
    ∀ (l : List α) (x : α), (∀ c ∈ l, p c = true) → p x = false →
      (l ++ [x]).takeWhile p = l := by
  intro l x hl hx
  induction l with
  | nil => simp [List.takeWhile, hx]
  | cons c l ih =>
      rw [List.cons_append, List.takeWhile_cons]
      rw [hl c (List.mem_cons_self _ _)]
      simp only [if_true]
      rw [ih (fun d hd => hl d (List.mem_cons_of_mem _ hd))]

theorem mergeParts_single (p : Part) : mergeParts [p] = [p] := rfl

theorem split_squote (s : List Char) (base : Nat) (h : '\'' ∉ s) :
    splitWordIntoParts ('\'' :: (s ++ ['\''])) base =
      if s = [] then [] else [Part.Text s ⟨base + 1, base + 1 + s.length⟩] := by
  have hlen : ('\'' :: (s ++ ['\''])).length = s.length + 2 := by simp
  unfold splitWordIntoParts
  rw [hlen]
  rw [splitLoop.eq_def]
  dsimp only
  rw [if_pos rfl]
  have htw : (s ++ ['\'']).takeWhile (fun x => x ≠ '\'') = s := by
    apply takeWhile_append_singleton
    · intro c hc
      simp only [ne_eq, decide_eq_true_eq]
      exact fun hh => h (hh ▸ hc)
    · simp
  rw [htw]
  have hdrop : (s ++ ['\'']).drop s.length = ['\''] := List.drop_left s ['\'']
  rw [hdrop]
  rw [if_neg (by simp)]
  have hdrop1 : (['\''] : List Char).drop 1 = [] := rfl
  rw [hdrop1, splitLoop_nil, List.append_nil]
  unfold pushText
  by_cases hs : s = []
  · simp [hs, mergeParts]
  · simp only [hs, if_false]
    exact mergeParts_single _

/-- C6 (confirmed): single-quoted content is invariant under expansion:
for every interior text not containing a single quote and every context,
expanding the word obtained by parsing the single-quoted input yields
exactly the interior text, with no escape or variable interpretation; in
particular the word of the input quote-dollar-X-quote expands to the
literal two characters dollar X under every context. -/
theorem single_quote_invariant :
    (∀ (s : List Char) (ctx : Ctx), '\'' ∉ s →
        expandWord (firstWord (parse ('\'' :: (s ++ ['\''])))) ctx = s) ∧
    (∀ ctx : Ctx, expandWord (firstWord (parse ('\'' :: ("$X".data ++ ['\''])))) ctx = "$X".data) := by
  constructor
  · intro s ctx h
    have hfw : firstWord (parse ('\'' :: (s ++ ['\'']))) =
        makeWord ('\'' :: (s ++ ['\''])) 0 := by
      unfold parse firstWord
      rw [lex_squote s h]
      rfl
    rw [hfw]
    unfold makeWord expandWord
    rw [split_squote s 0 h]
    by_cases hs : s = []
    · simp [hs]
    · simp [hs]
  · intro ctx
    rfl

/-- Witness for C6 at the concrete input of the spec. -/
theorem single_quote_invariant_witness :
    ('\'' ∉ "$X".data) ∧
    expandWord (firstWord (parse ('\'' :: ("$X".data ++ ['\'']))))
      (fun _ => some "y".data) = "$X".data :=
  ⟨by decide, single_quote_invariant.1 "$X".data (fun _ => some "y".data) (by decide)⟩

/-!  Counting commands: parseCommand stops exactly at the first Pipe or
EOF token, and the pipeline loop therefore produces one command per
pipe-separated segment, except that a trailing pipe contributes no final
command because the loop re-checks for EOF before parsing another one. -/

theorem parseCmdLoop_rest (ts : List Token) :
    (parseCmdLoop ts).2.2 = ts.dropWhile (fun t => !isStopTok t) := by
  induction ts using parseCmdLoop.induct with
  | case1 => simp [parseCmdLoop]
  | case2 t hk =>
      obtain ⟨k, tx, st, sp⟩ := t
      simp only at hk
      subst hk
      simp [parseCmdLoop, isStopTok, List.dropWhile]
  | case3 t hk =>
      obtain ⟨k, tx, st, sp⟩ := t
      simp only at hk
      subst hk
      simp [parseCmdLoop, isStopTok, List.dropWhile]
  | case4 t hk =>
      obtain ⟨k, tx, st, sp⟩ := t
      simp only at hk
      subst hk
      simp [parseCmdLoop, isStopTok, List.dropWhile]
  | case5 t h1 h2 h3 =>
      obtain ⟨k, tx, st, sp⟩ := t
      cases k with
      | EOF => exact (h1 rfl).elim
      | Pipe => exact (h2 rfl).elim
      | Word => exact (h3 rfl).elim
      | GT => simp [parseCmdLoop, isStopTok, List.dropWhile]
      | GTGT => simp [parseCmdLoop, isStopTok, List.dropWhile]
      | LT => simp [parseCmdLoop, isStopTok, List.dropWhile]
      | AMP_GT => simp [parseCmdLoop, isStopTok, List.dropWhile]
      | FD_GT m => simp [parseCmdLoop, isStopTok, List.dropWhile]
  | case6 t t2 rest2 hk =>
      obtain ⟨k, tx, st, sp⟩ := t
      simp only at hk
      subst hk
      simp [parseCmdLoop, isStopTok, List.dropWhile]
  | case7 t t2 rest2 hk =>
      obtain ⟨k, tx, st, sp⟩ := t
      simp only at hk
      subst hk
      simp [parseCmdLoop, isStopTok, List.dropWhile]
  | case8 t t2 rest2 hk ih =>
      obtain ⟨k, tx, st, sp⟩ := t
      simp only at hk
      subst hk
      rw [show parseCmdLoop (⟨TokenKind.Word, tx, st, sp⟩ :: t2 :: rest2) =
          (makeWord tx st :: (parseCmdLoop (t2 :: rest2)).1,
           (parseCmdLoop (t2 :: rest2)).2.1,
           (parseCmdLoop (t2 :: rest2)).2.2) from rfl]
      rw [List.dropWhile_cons]
      have hk1 : isStopTok ⟨TokenKind.Word, tx, st, sp⟩ = false := rfl
      rw [hk1]
      simpa using ih
  | case9 t t2 rest2 hw2 h1 h2 h3 ih =>
      obtain ⟨k, tx, st, sp⟩ := t
      have e : parseCmdLoop (⟨k, tx, st, sp⟩ :: t2 :: rest2) =
          ((parseCmdLoop rest2).1,
           mkRedir ⟨k, tx, st, sp⟩ t2 :: (parseCmdLoop rest2).2.1,
           (parseCmdLoop rest2).2.2) := by
        cases k with
        | EOF => exact (h1 rfl).elim
        | Pipe => exact (h2 rfl).elim
        | Word => exact (h3 rfl).elim
        | GT => simp [parseCmdLoop, hw2]
        | GTGT => simp [parseCmdLoop, hw2]
        | LT => simp [parseCmdLoop, hw2]
        | AMP_GT => simp [parseCmdLoop, hw2]
        | FD_GT m => simp [parseCmdLoop, hw2]
      rw [e, List.dropWhile_cons]
      have hk1 : isStopTok ⟨k, tx, st, sp⟩ = false := by
        cases k with
        | EOF => exact (h1 rfl).elim
        | Pipe => exact (h2 rfl).elim
        | Word => exact (h3 rfl).elim
        | GT => rfl
        | GTGT => rfl
        | LT => rfl
        | AMP_GT => rfl
        | FD_GT m => rfl
      rw [hk1]
      simp only [Bool.not_false, if_true]
      rw [List.dropWhile_cons]
      have hk2 : isStopTok t2 = false := by
        simp [isStopTok, hw2]
      rw [hk2]
      simpa using ih
  | case10 t t2 rest2 hw2 h1 h2 h3 ih =>
      obtain ⟨k, tx, st, sp⟩ := t
      have e : parseCmdLoop (⟨k, tx, st, sp⟩ :: t2 :: rest2) =
          ((parseCmdLoop (t2 :: rest2)).1,
           mkMissingRedir ⟨k, tx, st, sp⟩ :: (parseCmdLoop (t2 :: rest2)).2.1,
           (parseCmdLoop (t2 :: rest2)).2.2) := by
        cases k with
        | EOF => exact (h1 rfl).elim
        | Pipe => exact (h2 rfl).elim
        | Word => exact (h3 rfl).elim
        | GT => simp [parseCmdLoop, hw2]
        | GTGT => simp [parseCmdLoop, hw2]
        | LT => simp [parseCmdLoop, hw2]
        | AMP_GT => simp [parseCmdLoop, hw2]
        | FD_GT m => simp [parseCmdLoop, hw2]
      rw [e, List.dropWhile_cons]
      have hk1 : isStopTok ⟨k, tx, st, sp⟩ = false := by
        cases k with
        | EOF => exact (h1 rfl).elim
        | Pipe => exact (h2 rfl).elim
        | Word => exact (h3 rfl).elim
        | GT => rfl
        | GTGT => rfl
        | LT => rfl
        | AMP_GT => rfl
        | FD_GT m => rfl
      rw [hk1]
      simpa using ih

theorem dropWhile_append_singleton_tok (p : Token → Bool) (E : Token)
    (hE : p E = false) :
    ∀ l : List Token, (l ++ [E]).dropWhile p = l.dropWhile p ++ [E] := by
  intro l
  induction l with
  | nil => simp [List.dropWhile_cons, hE]
  | cons a l ih =>
      rw [List.cons_append, List.dropWhile_cons, List.dropWhile_cons]
      by_cases hp : p a = true
      · simp [hp, ih]
      · simp [hp]

theorem dropWhile_first_false (p : Token → Bool) :
    ∀ (l : List Token) (x : Token) (xs : List Token),
      l.dropWhile p = x :: xs → p x = false := by
  intro l
  induction l with
  | nil => intro x xs h; simp [List.dropWhile] at h
  | cons a l ih =>
      intro x xs h
      rw [List.dropWhile_cons] at h
      by_cases hp : p a = true
      · rw [if_pos hp] at h
        exact ih x xs h
      · rw [if_neg hp] at h
        cases h
        simpa using hp

theorem mem_of_getLast?_tok :
    ∀ (l : List Token) (t : Token), l.getLast? = some t → t ∈ l := by
  intro l
  induction l with
  | nil => intro t h; simp at h
  | cons a l ih =>
      intro t h
      cases l with
      | nil =>
          rw [List.getLast?_singleton] at h
          simp only [Option.some.injEq] at h
          subst h
          exact List.mem_singleton_self _
      | cons b bs =>
          rw [List.getLast?_cons_cons] at h
          exact List.mem_cons_of_mem _ (ih t h)

theorem pipeCountTs_append (l1 l2 : List Token) :
    pipeCountTs (l1 ++ l2) = pipeCountTs l1 + pipeCountTs l2 := by
  simp [pipeCountTs, List.filter_append]

theorem pipeCountTs_cons_pipe {p : Token} (hp : p.kind = TokenKind.Pipe)
    (l : List Token) : pipeCountTs (p :: l) = 1 + pipeCountTs l := by
  simp [pipeCountTs, List.filter_cons, hp]
  omega

theorem pipeCountTs_eq_zero (l : List Token)
    (h : ∀ t ∈ l, ¬ t.kind = TokenKind.Pipe) : pipeCountTs l = 0 := by
  unfold pipeCountTs
  rw [List.filter_eq_nil_iff.mpr (by intro a ha; simpa using h a ha)]
  rfl

theorem lastTokIsPipe_append_cons (l1 : List Token) (p : Token)
    (after : List Token) :
    lastTokIsPipe (l1 ++ p :: after) =
      if after = [] then decide (p.kind = TokenKind.Pipe)
      else lastTokIsPipe after := by
  unfold lastTokIsPipe
  rw [List.getLast?_append]
  cases after with
  | nil => simp [List.getLast?_singleton, Option.or]
  | cons b bs =>
      rw [List.getLast?_cons_cons]
      rcases hgl : (b :: bs).getLast? with _ | t
      · rcases List.getLast?_eq_none_iff.mp hgl with h
        cases h
      · simp [hgl, Option.or]

theorem parseLoop_count :
    ∀ (fuel : Nat) (main : List Token) (E : Token),
      main.length < fuel → E.kind = TokenKind.EOF →
      (∀ t ∈ main, ¬ t.kind = TokenKind.EOF) →
      (parseLoop fuel (main ++ [E])).1.length =
        if main = [] then 0
        else pipeCountTs main + (if lastTokIsPipe main then 0 else 1) := by
  intro fuel
  induction fuel with
  | zero => intro main E h _ _; exact absurd h (Nat.not_lt_zero _)
  | succ fuel ih =>
      intro main E hlen hE hne
      have hpredE : (fun t => !isStopTok t) E = false := by
        simp [isStopTok, hE]
      match main with
      | [] =>
          rw [List.nil_append, parseLoop]
          rw [if_pos hE]
          simp
      | m :: mrest =>
          have hm : ¬ m.kind = TokenKind.EOF := hne m (List.mem_cons_self _ _)
          rw [List.cons_append, parseLoop]
          rw [if_neg hm]
          have hrest : (parseCmdLoop (m :: (mrest ++ [E]))).2.2
              = ((m :: mrest).dropWhile (fun t => !isStopTok t)) ++ [E] := by
            rw [parseCmdLoop_rest (m :: (mrest ++ [E]))]
            exact dropWhile_append_singleton_tok _ _ hpredE (m :: mrest)
          rcases hdw : (m :: mrest).dropWhile (fun t => !isStopTok t)
            with _ | ⟨p, after⟩
          · rw [hdw, List.nil_append] at hrest
            have hall : ∀ x ∈ m :: mrest, (!isStopTok x) = true := by
              have := List.dropWhile_eq_nil_iff.mp hdw
              simpa using this
            have hnopipe : ∀ t ∈ m :: mrest, ¬ t.kind = TokenKind.Pipe := by
              intro t ht hp
              have hx := hall t ht
              simp [isStopTok, hp] at hx
            dsimp only
            rw [hrest]
            dsimp only
            have hEnp : ¬ E.kind = TokenKind.Pipe := by rw [hE]; simp
            rw [if_neg hEnp]
            have hpc : pipeCountTs (m :: mrest) = 0 :=
              pipeCountTs_eq_zero _ hnopipe
            have hlast : lastTokIsPipe (m :: mrest) = false := by
              unfold lastTokIsPipe
              rcases hgl : (m :: mrest).getLast? with _ | t
              · rfl
              · have ht : t ∈ m :: mrest := mem_of_getLast?_tok _ t hgl
                simp [hnopipe t ht]
            rw [if_neg (by simp : ¬ (m :: mrest) = [])]
            rw [hpc, hlast]
            simp
          · rw [hdw, List.cons_append] at hrest
            have hpfalse : (fun t => !isStopTok t) p = false :=
              dropWhile_first_false _ _ p after hdw
            have hpstop : isStopTok p = true := by simpa using hpfalse
            have hpmem : p ∈ m :: mrest :=
              List.Sublist.mem (by rw [hdw]; exact List.mem_cons_self _ _)
                (List.dropWhile_sublist _)
            have hppipe : p.kind = TokenKind.Pipe := by
              have hpe := hne p hpmem
              simp only [isStopTok, Bool.or_eq_true, decide_eq_true_eq] at hpstop
              rcases hpstop with h | h
              · exact h
              · exact absurd h hpe
            dsimp only
            rw [hrest]
            dsimp only
            rw [if_pos hppipe]
            have hlenafter : after.length < fuel := by
              have hsub : (p :: after).length ≤ (m :: mrest).length := by
                rw [← hdw]
                exact List.Sublist.length_le (List.dropWhile_sublist _)
              simp only [List.length_cons] at hsub hlen
              omega
            have hneafter : ∀ t ∈ after, ¬ t.kind = TokenKind.EOF := by
              intro t ht
              exact hne t (List.Sublist.mem
                (by rw [hdw]; exact List.mem_cons_of_mem _ ht)
                (List.dropWhile_sublist _))
            have hih := ih after E hlenafter hE hneafter
            simp only [List.length_cons]
            rw [hih]
            have hdecomp : m :: mrest =
                ((m :: mrest).takeWhile (fun t => !isStopTok t)) ++ p :: after := by
              conv_lhs => rw [← List.takeWhile_append_dropWhile
                (fun t => !isStopTok t) (m :: mrest), hdw]
            have htwno : ∀ t ∈ (m :: mrest).takeWhile (fun t => !isStopTok t),
                ¬ t.kind = TokenKind.Pipe := by
              intro t ht hp
              have hx := List.mem_takeWhile_imp ht
              simp [isStopTok, hp] at hx
            have hpc : pipeCountTs (m :: mrest) = 1 + pipeCountTs after := by
              conv_lhs => rw [hdecomp]
              rw [pipeCountTs_append, pipeCountTs_eq_zero _ htwno,
                pipeCountTs_cons_pipe hppipe]
              omega
            have hlast : lastTokIsPipe (m :: mrest) =
                if after = [] then true else lastTokIsPipe after := by
              conv_lhs => rw [hdecomp]
              rw [lastTokIsPipe_append_cons]
              by_cases ha : after = [] <;> simp [ha, hppipe]
            rw [if_neg (by simp : ¬ (m :: mrest) = [])]
            rw [hpc, hlast]
            by_cases ha : after = []
            · subst ha
              simp [pipeCountTs]
            · simp only [ha, if_false]
              by_cases hlp : lastTokIsPipe after = true <;> simp [hlp] <;> omega

theorem parse_commands_count (s : List Char) :
    (parse s).commands.length =
      if mainTokens s = [] then 0
      else topLevelPipes s + (if endsWithPipe s then 0 else 1) := by
  have hE : (⟨TokenKind.EOF, [], s.length, s.length⟩ : Token).kind =
      TokenKind.EOF := rfl
  have hne : ∀ t ∈ mainTokens s, ¬ t.kind = TokenKind.EOF := fun t ht =>
    lexLoop_mem_ne_eof _ _ _ t ht
  have hfuel : (mainTokens s).length < (lex s).length + 1 := by
    unfold lex
    simp
    omega
  have h := parseLoop_count ((lex s).length + 1) (mainTokens s)
      ⟨TokenKind.EOF, [], s.length, s.length⟩ hfuel hE hne
  have hcs : (parse s).commands = (parseLoop ((lex s).length + 1)
      (mainTokens s ++ [⟨TokenKind.EOF, [], s.length, s.length⟩])).1 := rfl
  rw [hcs, h]
  have htp : topLevelPipes s = pipeCountTs (mainTokens s) := by
    show pipeCountTs (lex s) = pipeCountTs (mainTokens s)
    unfold lex
    rw [pipeCountTs_append]
    rfl
  have hep : endsWithPipe s = lastTokIsPipe (mainTokens s) := rfl
  rw [htp, hep]

/-- Counterexample to C2: parsing the empty input yields a Pipeline with
zero commands, so commands.length is not at least 1 for every input. -/
theorem parse_empty_no_commands :
    (parse "".data).commands.length = 0 ∧
    ¬ (1 ≤ (parse "".data).commands.length) := by decide

/-- C2 (corrected): the Pipeline returned by parse has at least one
command whenever the input contains at least one non-whitespace
character; an input that is empty or all whitespace produces a Pipeline
with zero commands. -/
theorem parse_commands_nonempty (s : List Char)
    (h : ∃ c ∈ s, ¬ isSpace c = true) :
    1 ≤ (parse s).commands.length := by
  have hmain : mainTokens s ≠ [] :=
    lexLoop_ne_nil (s.length + 1) 0 s (Nat.lt_succ_self _) h
  rw [parse_commands_count s, if_neg hmain]
  by_cases hlp : endsWithPipe s = true
  · rw [hlp]
    have : 1 ≤ topLevelPipes s := by
      unfold endsWithPipe at hlp
      rcases hgl : (mainTokens s).getLast? with _ | t
      · rw [hgl] at hlp; simp at hlp
      · rw [hgl] at hlp
        simp only [decide_eq_true_eq] at hlp
        have htm : t ∈ mainTokens s := mem_of_getLast?_tok _ t hgl
        have htl : t ∈ lex s := by
          unfold lex
          exact List.mem_append_left _ htm
        have hmf : t ∈ (lex s).filter
            (fun t => decide (t.kind = TokenKind.Pipe)) :=
          List.mem_filter.mpr ⟨htl, by simp [hlp]⟩
        have := List.length_pos.mpr (List.ne_nil_of_mem hmf)
        exact this
    omega
  · simp only [Bool.not_eq_true] at hlp
    rw [hlp]
    simp

/-- Witness for C2 at a one-letter input. -/
theorem parse_commands_nonempty_witness :
    (∃ c ∈ "x".data, ¬ isSpace c = true) ∧
    1 ≤ (parse "x".data).commands.length :=
  ⟨by decide, parse_commands_nonempty "x".data (by decide)⟩

/-- Counterexample to C1: the input a-space-pipe contains non-whitespace
characters outside quotes at top level and one top-level pipe, but parse
returns one command, not two: after consuming the trailing pipe the
pipeline loop finds the EOF token and stops without adding a final empty
command. -/
theorem trailing_pipe_counterexample :
    (∃ c ∈ "a |".data, ¬ isSpace c = true) ∧
    topLevelPipes "a |".data = 1 ∧
    (parse "a |".data).commands.length = 1 ∧
    ¬ ((parse "a |".data).commands.length = topLevelPipes "a |".data + 1) := by
  decide

/-- C1 (corrected): for every input containing at least one
non-whitespace character (outside quotes at top level — any quoted region
is itself introduced by a top-level quote character, so the conditions
agree), parse terminates and the number of commands equals the number of
top-level pipe tokens plus one, except that an input whose final
top-level token is a pipe contributes no command after that trailing
pipe, so the count is exactly the number of top-level pipes. -/
theorem parse_command_count_amended (s : List Char)
    (h : ∃ c ∈ s, ¬ isSpace c = true) :
    (parse s).commands.length =
      topLevelPipes s + (if endsWithPipe s then 0 else 1) := by
  have hmain : mainTokens s ≠ [] :=
    lexLoop_ne_nil (s.length + 1) 0 s (Nat.lt_succ_self _) h
  rw [parse_commands_count s, if_neg hmain]

/-- Witness for C1 at a three-command pipeline input. -/
theorem parse_command_count_amended_witness :
    (∃ c ∈ "a | b".data, ¬ isSpace c = true) ∧
    (parse "a | b".data).commands.length =
      topLevelPipes "a | b".data +
        (if endsWithPipe "a | b".data then 0 else 1) :=
  ⟨by decide, parse_command_count_amended "a | b".data (by decide)⟩

/-- C3 (corrected): parsing a-space-gt-space-out.txt yields a pipeline
with one Command whose redirections contain exactly one Redirection with
op gt and a target word that expands to out.txt under every context; the
fd field, however, is left undefined (none) rather than defaulted to 1 —
applying the default source descriptor for the operator is deferred to
whatever consumes the AST. -/
theorem parse_gt_redirection :
    (parse "a > out.txt".data).commands.length = 1 ∧
    ((parse "a > out.txt".data).commands.headD defaultCommand).redirections.length = 1 ∧
    (firstRedir (parse "a > out.txt".data)).op = RedirOp.gt ∧
    (firstRedir (parse "a > out.txt".data)).fd = none ∧
    ∀ ctx : Ctx, expandWord (firstRedir (parse "a > out.txt".data)).target ctx =
      "out.txt".data := by
  refine ⟨by decide, by decide, by decide, by decide, fun ctx => ?_⟩
  rfl

end MiniSh
